import Mathlib

/-!
Verification of the `ralg` numeric core: a shallow embedding in Lean 4 of the
complex-number type (`src/math/complex.rs`), the dense-coefficient polynomial
type (`src/math/poly.rs`), the power-of-two helper (`src/math/misc.rs`) and the
Cooley-Tukey FFT (`src/math/fft.rs`), together with theorems settling the
spec claims about them.

Modelling conventions:
* Rust `usize` values are modelled as `Nat`; the `usize::MAX` sentinel used by
  `degree`/`degree_bound` is the explicit constant `USIZE_MAX = 2^64 - 1`.
* Rust arithmetic that can panic (the `u32` subtraction
  `n.leading_zeros() - 1` in `next_power_of_2`) is modelled with `Option`,
  `none` standing for the panic.
* `f32` scalars are modelled as real numbers (exact arithmetic, with
  `Real.cos`/`Real.sin` for the trigonometric intrinsics).
* The unguarded recursion of `fft_recursive` is modelled with an explicit
  fuel parameter: `none` means the call-depth budget is exhausted, and a
  result that is `none` for every fuel corresponds to non-termination of the
  Rust code.
-/

namespace Ralg

/-- The value of `usize::MAX` on a 64-bit target, used as the "infinite
degree" sentinel by `Polynomial::degree` and `Polynomial::degree_bound`. -/
def USIZE_MAX : Nat := 2 ^ 64 - 1

/-! ## Complex numbers (`src/math/complex.rs`) -/

/-- `Complex<T> { re: T, im: T }` from `src/math/complex.rs`. -/
@[ext]
structure Complex (T : Type) where
  re : T
  im : T
deriving DecidableEq

/-- `impl Add for Complex`: component-wise addition. -/
instance {T : Type} [Add T] : Add (Complex T) :=
  ⟨fun z w => ⟨z.re + w.re, z.im + w.im⟩⟩

/-- `impl Sub for Complex`: component-wise subtraction. -/
instance {T : Type} [Sub T] : Sub (Complex T) :=
  ⟨fun z w => ⟨z.re - w.re, z.im - w.im⟩⟩

/-- `impl Mul for Complex`: `(a,b) * (c,d) = (a*c - b*d, a*d + b*c)`. -/
instance {T : Type} [Add T] [Sub T] [Mul T] : Mul (Complex T) :=
  ⟨fun z w => ⟨z.re * w.re - z.im * w.im, z.re * w.im + z.im * w.re⟩⟩

@[simp]
theorem complex_add_def {T : Type} [Add T] (a b c d : T) :
    (⟨a, b⟩ + ⟨c, d⟩ : Complex T) = ⟨a + c, b + d⟩ := rfl

@[simp]
theorem complex_sub_def {T : Type} [Sub T] (a b c d : T) :
    (⟨a, b⟩ - ⟨c, d⟩ : Complex T) = ⟨a - c, b - d⟩ := rfl

@[simp]
theorem complex_mul_def {T : Type} [Add T] [Sub T] [Mul T] (a b c d : T) :
    (⟨a, b⟩ * ⟨c, d⟩ : Complex T) = ⟨a * c - b * d, a * d + b * c⟩ := rfl

/-- `Complex::from_real`: lift a real number to `(re, 0)`. -/
def Complex.from_real {T : Type} [Zero T] (re : T) : Complex T := ⟨re, 0⟩

/-- `Complex::from_real_vec`: element-wise, order-preserving lift of a vector
of reals into complex numbers with zero imaginary part. -/
def Complex.from_real_vec {T : Type} [Zero T] (vec_re : List T) : List (Complex T) :=
  vec_re.map Complex.from_real

/-- `Complex::<f32>::root_of_unity` over the exact reals: the angle is
`-2 * PI / n` and the result is `(cos theta, sin theta)`. -/
noncomputable def Complex.root_of_unity (n : Nat) : Complex Real :=
  ⟨Real.cos (-2 * Real.pi / n), Real.sin (-2 * Real.pi / n)⟩

/-! ## Polynomials (`src/math/poly.rs`) -/

/-- `Polynomial<T> { coeff: Vec<T> }`: index `i` holds the coefficient of
`x^i`. -/
structure Polynomial (T : Type) where
  coeff : List T
deriving DecidableEq

/-- The scan `coeff.iter().enumerate().rev().find(|(_, a)| a != zero)` used by
`degree` and `reduce`: the index of the last non-zero entry of the list, or
`none` when the list is empty or all zeros. -/
def last_nonzero {T : Type} [Zero T] [DecidableEq T] : List T → Option Nat
  | [] => none
  | a :: t =>
    match last_nonzero t with
    | some i => some (i + 1)
    | none => if a = 0 then none else some 0

/-- `Polynomial::degree_bound`: `len - 1`, or the `usize::MAX` sentinel when
the coefficient vector is empty or consists entirely of zeros. -/
def Polynomial.degree_bound {T : Type} [Zero T] [DecidableEq T]
    (p : Polynomial T) : Nat :=
  if p.coeff.length = 0 ∨ ∀ a ∈ p.coeff, a = 0 then USIZE_MAX
  else p.coeff.length - 1

/-- `Polynomial::degree`: index of the last non-zero coefficient, or the
`usize::MAX` sentinel when there is none. -/
def Polynomial.degree {T : Type} [Zero T] [DecidableEq T]
    (p : Polynomial T) : Nat :=
  (last_nonzero p.coeff).getD USIZE_MAX

/-- Inner shape of `Polynomial::eval` (Horner): the fold starts from the last
coefficient (`acc = coeff[l-1]`) and steps with `acc = coeff[idx] + x * acc`;
an empty coefficient vector evaluates to zero. -/
def horner {T : Type} [Zero T] [Add T] [Mul T] (x : T) : List T → T
  | [] => 0
  | [a] => a
  | a :: b :: t => a + x * horner x (b :: t)

/-- `Polynomial::eval` at a point `x` (Horner's method). -/
def Polynomial.eval {T : Type} [Zero T] [Add T] [Mul T]
    (p : Polynomial T) (x : T) : T :=
  horner x p.coeff

/-- `Polynomial::reduce` (as a pure function): truncate the coefficient vector
to one past the last non-zero index, or empty it when every coefficient is
zero. -/
def Polynomial.reduce {T : Type} [Zero T] [DecidableEq T]
    (p : Polynomial T) : Polynomial T :=
  match last_nonzero p.coeff with
  | some last_nz => ⟨p.coeff.take (last_nz + 1)⟩
  | none => ⟨[]⟩

/-- `Polynomial::set_degree_bound`: append `n.saturating_sub(degree_bound())`
zeros to the coefficient vector (`Nat` subtraction is saturating). -/
def Polynomial.set_degree_bound {T : Type} [Zero T] [DecidableEq T]
    (p : Polynomial T) (n : Nat) : Polynomial T :=
  ⟨p.coeff ++ List.replicate (n - p.degree_bound) 0⟩

/-- Coefficient vector of `impl Sub for Polynomial`: `zip_longest` by index,
`Both(a, b) ↦ a - b`, `Left(a) ↦ a`, `Right(b) ↦ b` (the one-sided entries are
copied unchanged). -/
def sub_coeff {T : Type} [Sub T] : List T → List T → List T
  | a :: ta, b :: tb => (a - b) :: sub_coeff ta tb
  | [], tb => tb
  | ta, [] => ta

/-- `impl Sub for Polynomial`. -/
def Polynomial.sub {T : Type} [Sub T] (p q : Polynomial T) : Polynomial T :=
  ⟨sub_coeff p.coeff q.coeff⟩

/-- `impl Mul for Polynomial`: if either operand has an empty coefficient
vector the result is the empty polynomial; otherwise a vector of
`len(a) + len(b) - 1` zeros is filled by the double loop
`coeff[i + j] = coeff[i + j] + a[i] * b[j]` (modelled as folds over the index
ranges, with `List.set`/`List.getD` for the indexed update and reads). -/
def Polynomial.mul {T : Type} [Zero T] [Add T] [Mul T]
    (p q : Polynomial T) : Polynomial T :=
  if p.coeff.length * q.coeff.length = 0 then ⟨[]⟩
  else
    ⟨(List.range p.coeff.length).foldl
      (fun acc i =>
        (List.range q.coeff.length).foldl
          (fun acc2 j =>
            acc2.set (i + j)
              (acc2.getD (i + j) 0 + p.coeff.getD i 0 * q.coeff.getD j 0))
          acc)
      (List.replicate (p.coeff.length + q.coeff.length - 1) 0)⟩

/-! ## Power-of-two helper (`src/math/misc.rs`) -/

/-- `usize::leading_zeros` on a 64-bit target, for non-zero inputs below
`2^64`: `64 - (bit length of n) = 63 - log2 n`. -/
def leading_zeros (n : Nat) : Nat := 63 - Nat.log2 n

/-- `next_power_of_2` from `src/math/misc.rs`:
`0 ↦ 1`; a non-zero `n` with `n & (n - 1) == 0` is returned unchanged;
otherwise the result is `0x8000000000000000 >> (n.leading_zeros() - 1)`.
The `u32` subtraction `n.leading_zeros() - 1` panics when `leading_zeros`
is `0` (inputs above `2^63`); the panic is modelled as `none`. -/
def next_power_of_2 (n : Nat) : Option Nat :=
  if n = 0 then some 1
  else if n &&& (n - 1) = 0 then some n
  else
    let lz := leading_zeros n
    if lz = 0 then none
    else some (0x8000000000000000 >>> (lz - 1))

/-! ## FFT (`src/math/fft.rs`) -/

/-- The even-indexed entries of a list, order preserved (`idx % 2 == 0` branch
of the split loop in `fft_recursive`). -/
def evens {α : Type} : List α → List α
  | [] => []
  | [a] => [a]
  | a :: _ :: t => a :: evens t

/-- The odd-indexed entries of a list, order preserved (`idx % 2 != 0` branch
of the split loop in `fft_recursive`). -/
def odds {α : Type} : List α → List α
  | [] => []
  | [_] => []
  | _ :: b :: t => b :: odds t

/-- The butterfly loop `for j in 0..n/2` of `fft_recursive`, as a fold over
`0, ..., halfn - 1` carrying the state `(omega, v)`:
`t = omega * y_odd[j]`, `v[j] = y_even[j] + t`, `v[j + n/2] = y_even[j] - t`,
`omega = root_n * omega`.  All the indexed accesses are in bounds in every
reachable call, so `List.getD`/`List.set` faithfully model them. -/
noncomputable def fft_combine (root_n : Complex Real) (y_even y_odd : List (Complex Real))
    (halfn : Nat) (v : List (Complex Real)) : List (Complex Real) :=
  ((List.range halfn).foldl
    (fun (st : Complex Real × List (Complex Real)) j =>
      let t := st.1 * y_odd.getD j ⟨0, 0⟩
      (root_n * st.1,
       (st.2.set j (y_even.getD j ⟨0, 0⟩ + t)).set (j + halfn)
         (y_even.getD j ⟨0, 0⟩ - t)))
    (⟨1, 0⟩, v)).2

/-- `fft_recursive` with an explicit fuel bound on the call depth: length-one
vectors are returned unchanged; otherwise the vector is split into its even-
and odd-indexed halves, both halves are transformed recursively, and the
results are combined by the butterfly loop.  `none` means the fuel was
exhausted; the Rust code recurses forever on the empty vector, which is
modelled by the result being `none` at every fuel. -/
noncomputable def fft_recursive : Nat → List (Complex Real) → Option (List (Complex Real))
  | 0, _ => none
  | fuel + 1, v =>
    if v.length = 1 then some v
    else
      match fft_recursive fuel (evens v), fft_recursive fuel (odds v) with
      | some y_even, some y_odd =>
        some (fft_combine (Complex.root_of_unity v.length) y_even y_odd
          (v.length / 2) v)
      | _, _ => none

/-- The zero-padding step at the top of `fft`: compute
`n2 = next_power_of_2(len(coeff))` and, when `n2` differs from the current
length, call `set_degree_bound(n2 - 1)`; `none` propagates a panic of
`next_power_of_2`. -/
noncomputable def fft_pad (p : Polynomial Real) : Option (Polynomial Real) :=
  (next_power_of_2 p.coeff.length).map fun n2 =>
    if n2 ≠ p.coeff.length then p.set_degree_bound (n2 - 1) else p

/-- `fft`: pad, lift the real coefficients into complex numbers, and run the
recursive transform.  The fuel `length + 1` strictly exceeds the call depth
of `fft_recursive` on every non-empty vector, so `none` occurs exactly on the
inputs where the Rust code fails to terminate. -/
noncomputable def fft (p : Polynomial Real) : Option (List (Complex Real)) :=
  (fft_pad p).bind fun q =>
    fft_recursive (q.coeff.length + 1) (Complex.from_real_vec q.coeff)

/-! ## Helper lemmas -/

theorem last_nonzero_lt_length {T : Type} [Zero T] [DecidableEq T]
    {l : List T} {i : Nat} (h : last_nonzero l = some i) : i < l.length := by
  induction l generalizing i with
  | nil => simp [last_nonzero] at h
  | cons a t ih =>
    rw [last_nonzero] at h
    cases h' : last_nonzero t with
    | some j =>
      rw [h'] at h
      simp only [Option.some.injEq] at h
      subst h
      simpa using Nat.succ_lt_succ (ih h')
    | none =>
      rw [h'] at h
      by_cases ha : a = 0
      · simp [ha] at h
      · simp only [ha, if_false] at h
        simp only [Option.some.injEq] at h
        subst h
        simp

@[simp]
theorem Polynomial.coeff_mk {T : Type} (l : List T) :
    (Polynomial.mk l).coeff = l := rfl

theorem last_nonzero_eq_none_iff {T : Type} [Zero T] [DecidableEq T]
    {l : List T} : last_nonzero l = none ↔ ∀ c ∈ l, c = 0 := by
  induction l with
  | nil => simp [last_nonzero]
  | cons a t ih =>
    rw [last_nonzero]
    cases h' : last_nonzero t with
    | some j =>
      refine iff_of_false (by simp) fun h => ?_
      have hnone : last_nonzero t = none :=
        ih.mpr fun c hc => h c (List.mem_cons_of_mem a hc)
      rw [hnone] at h'
      simp at h'
    | none =>
      show (if a = 0 then none else some 0) = none ↔ _
      have ht : ∀ c ∈ t, c = 0 := ih.mp h'
      by_cases ha : a = 0
      · rw [if_pos ha]
        refine iff_of_true rfl fun c hc => ?_
        rcases List.mem_cons.mp hc with rfl | hc
        · exact ha
        · exact ht c hc
      · rw [if_neg ha]
        exact iff_of_false (by simp) fun h => ha (h a (List.mem_cons_self a t))

theorem last_nonzero_take {T : Type} [Zero T] [DecidableEq T]
    {l : List T} {i : Nat} (h : last_nonzero l = some i) :
    last_nonzero (l.take (i + 1)) = some i := by
  induction l generalizing i with
  | nil => simp [last_nonzero] at h
  | cons a t ih =>
    rw [last_nonzero] at h
    cases h' : last_nonzero t with
    | some j =>
      rw [h'] at h
      simp only [Option.some.injEq] at h
      subst h
      rw [List.take_succ_cons, last_nonzero, ih h']
    | none =>
      rw [h'] at h
      by_cases ha : a = 0
      · simp [ha] at h
      · simp only [ha, if_false, Option.some.injEq] at h
        subst h
        simp [last_nonzero, ha]

/-- C7: for every polynomial with at least one non-zero coefficient (so that
both quantities are finite rather than the `usize::MAX` sentinel),
`degree() <= degree_bound()`, with `degree_bound() = len(coeff) - 1` and
`degree()` the index of the last non-zero coefficient. -/
theorem degree_le_degree_bound {T : Type} [Zero T] [DecidableEq T]
    (p : Polynomial T) (h : ∃ c ∈ p.coeff, c ≠ 0) :
    p.degree ≤ p.degree_bound ∧ p.degree_bound = p.coeff.length - 1 := by
  have hnz : last_nonzero p.coeff ≠ none := by
    intro hn
    obtain ⟨c, hc, hc0⟩ := h
    exact hc0 (last_nonzero_eq_none_iff.mp hn c hc)
  obtain ⟨i, hi⟩ := Option.ne_none_iff_exists'.mp hnz
  have hlen : p.coeff.length ≠ 0 := by
    obtain ⟨c, hc, _⟩ := h
    exact List.length_pos.mpr (List.ne_nil_of_mem hc) |>.ne'
  have hbound : p.degree_bound = p.coeff.length - 1 := by
    rw [Polynomial.degree_bound, if_neg]
    push_neg
    refine ⟨hlen, ?_⟩
    obtain ⟨c, hc, hc0⟩ := h
    exact ⟨c, hc, hc0⟩
  refine ⟨?_, hbound⟩
  rw [hbound, Polynomial.degree, hi]
  have := last_nonzero_lt_length hi
  simp only [Option.getD_some]
  omega

/-- C7 witness: the polynomial `[0, 1]` over the integers has degree `1` and
degree bound `1`. -/
theorem degree_le_degree_bound_witness :
    (Polynomial.mk [(0 : Int), 1]).degree ≤ (Polynomial.mk [(0 : Int), 1]).degree_bound ∧
      (Polynomial.mk [(0 : Int), 1]).degree_bound = 1 :=
  ⟨(degree_le_degree_bound ⟨[0, 1]⟩ ⟨1, by simp, one_ne_zero⟩).1,
   (degree_le_degree_bound ⟨[0, 1]⟩ ⟨1, by simp, one_ne_zero⟩).2⟩

/-- C8: `reduce` is idempotent, and a single call truncates the coefficient
vector to one past the last non-zero index (the degree), or empties it when
no non-zero coefficient exists. -/
theorem reduce_idempotent {T : Type} [Zero T] [DecidableEq T]
    (p : Polynomial T) :
    p.reduce.reduce = p.reduce ∧
      ((∃ c ∈ p.coeff, c ≠ 0) → p.reduce.coeff = p.coeff.take (p.degree + 1)) ∧
      ((∀ c ∈ p.coeff, c = 0) → p.reduce.coeff = []) := by
  refine ⟨?_, ?_, ?_⟩
  · cases h : last_nonzero p.coeff with
    | some i =>
      have h1 : p.reduce = ⟨p.coeff.take (i + 1)⟩ := by rw [Polynomial.reduce, h]
      rw [h1, Polynomial.reduce]
      simp [last_nonzero_take h, List.take_take]
    | none =>
      have h1 : p.reduce = ⟨[]⟩ := by rw [Polynomial.reduce, h]
      rw [h1, Polynomial.reduce]
      simp [last_nonzero]
  · intro h
    have hnz : last_nonzero p.coeff ≠ none := by
      intro hn
      obtain ⟨c, hc, hc0⟩ := h
      exact hc0 (last_nonzero_eq_none_iff.mp hn c hc)
    obtain ⟨i, hi⟩ := Option.ne_none_iff_exists'.mp hnz
    rw [Polynomial.reduce, hi, Polynomial.degree, hi]
    simp
  · intro h
    rw [Polynomial.reduce, last_nonzero_eq_none_iff.mpr h]

/-- C8 witness: `reduce` at the concrete polynomials `[1, 0]` and `[0]` over
the integers. -/
theorem reduce_idempotent_witness :
    (Polynomial.mk [(1 : Int), 0]).reduce.reduce = (Polynomial.mk [(1 : Int), 0]).reduce ∧
      (Polynomial.mk [(1 : Int), 0]).reduce.coeff =
        [(1 : Int), 0].take ((Polynomial.mk [(1 : Int), 0]).degree + 1) ∧
      (Polynomial.mk [(0 : Int)]).reduce.coeff = [] :=
  ⟨(reduce_idempotent ⟨[1, 0]⟩).1,
   (reduce_idempotent ⟨[1, 0]⟩).2.1 ⟨1, by simp, one_ne_zero⟩,
   (reduce_idempotent ⟨[0]⟩).2.2 (by simp)⟩

/-- C9: the complex product is `(a, b) * (c, d) = (a*c - b*d, a*d + b*c)` for
every component type with the required arithmetic, and over the integers
`Complex(3, 4) * Complex(3, 4) = Complex(-7, 24)`. -/
theorem complex_mul_spec :
    (∀ (T : Type) [Add T] [Sub T] [Mul T] (a b c d : T),
        (⟨a, b⟩ * ⟨c, d⟩ : Complex T) = ⟨a * c - b * d, a * d + b * c⟩) ∧
      (⟨3, 4⟩ * ⟨3, 4⟩ : Complex Int) = ⟨-7, 24⟩ :=
  ⟨fun _ _ _ _ _ _ _ _ => rfl, by decide⟩

theorem horner_cons {T : Type} [NonUnitalNonAssocSemiring T] (x a : T)
    (t : List T) : horner x (a :: t) = a + x * horner x t := by
  cases t with
  | nil => simp [horner]
  | cons b t => rfl

theorem horner_all_zero {T : Type} [NonUnitalNonAssocSemiring T] (x : T)
    {l : List T} (h : ∀ c ∈ l, c = 0) : horner x l = 0 := by
  induction l with
  | nil => rfl
  | cons a t ih =>
    rw [horner_cons, h a (List.mem_cons_self a t),
      ih fun c hc => h c (List.mem_cons_of_mem a hc)]
    simp

theorem horner_take {T : Type} [NonUnitalNonAssocSemiring T] [DecidableEq T]
    (x : T) {l : List T} {i : Nat} (h : last_nonzero l = some i) :
    horner x (l.take (i + 1)) = horner x l := by
  induction l generalizing i with
  | nil => simp [last_nonzero] at h
  | cons a t ih =>
    rw [last_nonzero] at h
    cases h' : last_nonzero t with
    | some j =>
      rw [h'] at h
      simp only [Option.some.injEq] at h
      subst h
      rw [List.take_succ_cons, horner_cons, horner_cons, ih h']
    | none =>
      rw [h'] at h
      by_cases ha : a = 0
      · simp [ha] at h
      · simp only [ha, if_false, Option.some.injEq] at h
        subst h
        have ht : horner x t = 0 :=
          horner_all_zero x (last_nonzero_eq_none_iff.mp h')


        rw [List.take_succ_cons, List.take_zero, horner_cons x a t, ht]
        simp [horner]

/-- C10: `reduce` preserves the value computed by `eval`: removing trailing
zero coefficients never changes the result of the Horner evaluation. -/
theorem reduce_preserves_eval {T : Type} [NonUnitalNonAssocSemiring T]
    [DecidableEq T] (p : Polynomial T) (x : T) :
    p.reduce.eval x = p.eval x := by
  rw [Polynomial.eval, Polynomial.eval, Polynomial.reduce]
  cases h : last_nonzero p.coeff with
  | some i => simpa using horner_take x h
  | none => simpa [horner] using (horner_all_zero x (last_nonzero_eq_none_iff.mp h)).symm

theorem sub_coeff_nil_left {T : Type} [Sub T] (b : List T) :
    sub_coeff [] b = b := by cases b <;> simp [sub_coeff]

theorem sub_coeff_nil_right {T : Type} [Sub T] (a : List T) :
    sub_coeff a [] = a := by cases a <;> simp [sub_coeff]

theorem sub_coeff_length {T : Type} [Sub T] (a b : List T) :
    (sub_coeff a b).length = max a.length b.length := by
  induction a generalizing b with
  | nil => cases b <;> simp [sub_coeff]
  | cons x ta ih =>
    cases b with
    | nil => simp [sub_coeff]
    | cons y tb =>
      rw [sub_coeff]
      simp only [List.length_cons, ih]
      omega

theorem sub_coeff_getD_both {T : Type} [Zero T] [Sub T] :
    ∀ (a b : List T) (i : Nat), i < a.length → i < b.length →
      (sub_coeff a b).getD i 0 = a.getD i 0 - b.getD i 0
  | [], _, i, hi, _ => absurd hi (by simp)
  | _ :: _, [], i, _, hi => absurd hi (by simp)
  | x :: ta, y :: tb, 0, _, _ => by simp [sub_coeff]
  | x :: ta, y :: tb, i + 1, hi, hi' => by
    rw [sub_coeff]
    simp only [List.getD_cons_succ]
    exact sub_coeff_getD_both ta tb i (by simpa using hi) (by simpa using hi')

theorem sub_coeff_getD_left {T : Type} [Zero T] [Sub T] :
    ∀ (a b : List T) (i : Nat), b.length ≤ i → i < a.length →
      (sub_coeff a b).getD i 0 = a.getD i 0
  | [], _, i, _, hi => absurd hi (by simp)
  | x :: ta, [], i, _, _ => by rw [sub_coeff_nil_right]
  | x :: ta, y :: tb, 0, hb, _ => absurd hb (by simp)
  | x :: ta, y :: tb, i + 1, hb, hi => by
    rw [sub_coeff]
    simp only [List.getD_cons_succ]
    exact sub_coeff_getD_left ta tb i (by simpa using hb) (by simpa using hi)

theorem sub_coeff_getD_right {T : Type} [Zero T] [Sub T] :
    ∀ (a b : List T) (i : Nat), a.length ≤ i → i < b.length →
      (sub_coeff a b).getD i 0 = b.getD i 0
  | [], b, i, _, _ => by rw [sub_coeff_nil_left]
  | _ :: _, [], i, _, hi => absurd hi (by simp)
  | x :: ta, y :: tb, 0, ha, _ => absurd ha (by simp)
  | x :: ta, y :: tb, i + 1, ha, hi => by
    rw [sub_coeff]
    simp only [List.getD_cons_succ]
    exact sub_coeff_getD_right ta tb i (by simpa using ha) (by simpa using hi)

/-- C6: subtraction produces a coefficient vector of length
`max(len(a), len(b))`; indices present in both operands hold `a[i] - b[i]`,
and indices present in only one operand hold that operand's coefficient
copied unchanged.  (The further claim that the copying is equivalent to
treating the missing side as zero fails for the right operand: see the
counterexample.) -/
theorem sub_spec {T : Type} [Zero T] [Sub T] (p q : Polynomial T) :
    (p.sub q).coeff.length = max p.coeff.length q.coeff.length ∧
      (∀ i, i < p.coeff.length → i < q.coeff.length →
        (p.sub q).coeff.getD i 0 = p.coeff.getD i 0 - q.coeff.getD i 0) ∧
      (∀ i, q.coeff.length ≤ i → i < p.coeff.length →
        (p.sub q).coeff.getD i 0 = p.coeff.getD i 0) ∧
      (∀ i, p.coeff.length ≤ i → i < q.coeff.length →
        (p.sub q).coeff.getD i 0 = q.coeff.getD i 0) :=
  ⟨sub_coeff_length p.coeff q.coeff,
   fun i => sub_coeff_getD_both p.coeff q.coeff i,
   fun i => sub_coeff_getD_left p.coeff q.coeff i,
   fun i => sub_coeff_getD_right p.coeff q.coeff i⟩

/-- C6 witness: `[5, 3] - [1]` over the integers has length `2`, index `0`
holds `5 - 1` and index `1` copies `3`. -/
theorem sub_spec_witness :
    (Polynomial.sub ⟨[5, 3]⟩ ⟨[(1 : Int)]⟩).coeff.length = max 2 1 ∧
      (Polynomial.sub ⟨[5, 3]⟩ ⟨[(1 : Int)]⟩).coeff.getD 0 0 =
        [(5 : Int), 3].getD 0 0 - [(1 : Int)].getD 0 0 ∧
      (Polynomial.sub ⟨[5, 3]⟩ ⟨[(1 : Int)]⟩).coeff.getD 1 0 =
        [(5 : Int), 3].getD 1 0 :=
  ⟨(sub_spec ⟨[5, 3]⟩ ⟨[(1 : Int)]⟩).1,
   (sub_spec ⟨[5, 3]⟩ ⟨[(1 : Int)]⟩).2.1 0 (by decide) (by decide),
   (sub_spec ⟨[5, 3]⟩ ⟨[(1 : Int)]⟩).2.2.1 1 (by decide) (by decide)⟩

/-- C6 counterexample: subtracting `[1]` from the empty polynomial copies the
coefficient `1` unchanged, whereas treating the missing left coefficient as
zero (subtracting from `[0]`) yields `-1`; the two results differ, so the
claimed equivalence with zero-extension is false for subtraction. -/
theorem sub_zero_extension_counterexample :
    Polynomial.sub ⟨[]⟩ ⟨[(1 : Int)]⟩ = Polynomial.mk [1] ∧
      Polynomial.sub ⟨[(0 : Int)]⟩ ⟨[1]⟩ = Polynomial.mk [-1] ∧
      Polynomial.mk [(1 : Int)] ≠ Polynomial.mk [-1] := by
  decide

theorem getD_all_zero {T : Type} [Zero T] :
    ∀ (l : List T), (∀ c ∈ l, c = 0) → ∀ i, l.getD i 0 = 0
  | [], _, i => by simp
  | a :: t, h, 0 => h a (List.mem_cons_self a t)
  | a :: t, h, i + 1 => by
    rw [List.getD_cons_succ]
    exact getD_all_zero t (fun c hc => h c (List.mem_cons_of_mem a hc)) i

theorem set_all_zero {T : Type} [Zero T] {l : List T} {n : Nat} {x : T}
    (hl : ∀ c ∈ l, c = 0) (hx : x = 0) : ∀ c ∈ l.set n x, c = 0 :=
  fun c hc => (List.mem_or_eq_of_mem_set hc).elim (hl c) fun h => h.trans hx

/-- C5: multiplying by the empty polynomial yields the empty polynomial, and
multiplying by any all-zero polynomial yields a polynomial all of whose
coefficients are zero.  (The claim that the product with a NON-empty all-zero
polynomial is structurally equal to the EMPTY polynomial is false: see the
counterexample, where the product keeps a positive length.) -/
theorem mul_zero_poly_spec (T : Type) [NonUnitalNonAssocSemiring T] :
    (∀ p : Polynomial T, p.mul ⟨[]⟩ = ⟨[]⟩ ∧ Polynomial.mul ⟨[]⟩ p = ⟨[]⟩) ∧
      ∀ (p z : Polynomial T), (∀ c ∈ z.coeff, c = 0) →
        ∀ c ∈ (p.mul z).coeff, c = 0 := by
  constructor
  · intro p
    constructor <;> · rw [Polynomial.mul] ; simp
  · intro p z hz
    rw [Polynomial.mul]
    split
    · simp
    · rw [Polynomial.coeff_mk]
      refine List.foldlRecOn (motive := fun acc => ∀ c ∈ acc, c = 0) _ _ _
        (fun c hc => List.eq_of_mem_replicate hc) ?_
      intro acc hacc i _
      refine List.foldlRecOn (motive := fun acc => ∀ c ∈ acc, c = 0) _ _ _ hacc ?_
      intro acc2 hacc2 j _
      refine set_all_zero hacc2 ?_
      rw [getD_all_zero _ hacc2, getD_all_zero _ hz, mul_zero, add_zero]

/-- C5 witness: over the integers, `[1, 2] * [] = []`, and every coefficient
of `[1, 2] * [0, 0]` is zero. -/
theorem mul_zero_poly_spec_witness :
    Polynomial.mul ⟨[(1 : Int), 2]⟩ ⟨[]⟩ = Polynomial.mk [] ∧
      ∀ c ∈ (Polynomial.mul ⟨[(1 : Int), 2]⟩ ⟨[0, 0]⟩).coeff, c = 0 :=
  ⟨((mul_zero_poly_spec Int).1 ⟨[1, 2]⟩).1,
   (mul_zero_poly_spec Int).2 ⟨[1, 2]⟩ ⟨[0, 0]⟩ (by decide)⟩

/-- C5 counterexample: `[1] * [0]` is the polynomial `[0]`, whose coefficient
vector has length one, and `[0]` is not structurally equal to the empty
polynomial; so the product with a non-empty zero polynomial is not the empty
polynomial. -/
theorem mul_zero_poly_counterexample :
    Polynomial.mul ⟨[(1 : Int)]⟩ ⟨[0]⟩ = Polynomial.mk [0] ∧
      Polynomial.mk [(0 : Int)] ≠ Polynomial.mk [] := by
  decide

theorem land_odd_even (m : Nat) : (2 * m + 1) &&& (2 * m) = 2 * m := by
  apply Nat.eq_of_testBit_eq
  intro i
  cases i with
  | zero =>
    have h2 : (2 * m) % 2 = 0 := by omega
    simp [Nat.testBit_land, Nat.testBit_zero, h2]
  | succ i =>
    rw [Nat.testBit_land]
    simp only [Nat.testBit_succ]
    have e1 : (2 * m + 1) / 2 = m := by omega
    have e2 : (2 * m) / 2 = m := by omega
    rw [e1, e2, Bool.and_self]

theorem land_even_pred (m : Nat) (hm : 1 ≤ m) :
    (2 * m) &&& (2 * m - 1) = 2 * (m &&& (m - 1)) := by
  apply Nat.eq_of_testBit_eq
  intro i
  cases i with
  | zero =>
    have h2 : (2 * m) % 2 = 0 := by omega
    have h3 : (2 * (m &&& (m - 1))) % 2 = 0 := by omega
    simp [Nat.testBit_land, Nat.testBit_zero, h2, h3]
  | succ i =>
    rw [Nat.testBit_land]
    simp only [Nat.testBit_succ]
    have e1 : (2 * m) / 2 = m := by omega
    have e2 : (2 * m - 1) / 2 = m - 1 := by omega
    have e3 : (2 * (m &&& (m - 1))) / 2 = m &&& (m - 1) := by omega
    rw [e1, e2, e3, Nat.testBit_land]

/-- The bit trick behind the middle branch of `next_power_of_2`: for positive
`n`, `n & (n - 1) == 0` holds exactly when `n` is a power of two. -/
theorem land_pred_eq_zero_iff :
    ∀ n, 0 < n → ((n &&& (n - 1)) = 0 ↔ ∃ k, n = 2 ^ k) := by
  intro n
  induction n using Nat.strong_induction_on with
  | _ n ih =>
    intro hn
    rcases Nat.even_or_odd n with he | ho
    · obtain ⟨m, hm⟩ := he
      have hm2 : n = 2 * m := by omega
      have hm1 : 1 ≤ m := by omega
      subst hm2
      rw [land_even_pred m hm1]
      constructor
      · intro h
        have h0 : m &&& (m - 1) = 0 := by omega
        obtain ⟨k, hk⟩ := (ih m (by omega) (by omega)).mp h0
        exact ⟨k + 1, by rw [hk, pow_succ]; ring⟩
      · rintro ⟨k, hk⟩
        cases k with
        | zero => omega
        | succ j =>
          have hmj : m = 2 ^ j := by
            have : (2 : Nat) ^ (j + 1) = 2 * 2 ^ j := by rw [pow_succ]; ring
            omega
          have := (ih m (by omega) (by omega)).mpr ⟨j, hmj⟩
          omega
    · obtain ⟨m, hm⟩ := ho
      subst hm
      rcases Nat.eq_zero_or_pos m with rfl | hm1
      · refine iff_of_true (by decide) ⟨0, by norm_num⟩
      · have key : (2 * m + 1) &&& (2 * m + 1 - 1) = 2 * m := by
          have h1 : 2 * m + 1 - 1 = 2 * m := by omega
          rw [h1, land_odd_even]
        rw [key]
        refine iff_of_false (by omega) ?_
        rintro ⟨k, hk⟩
        cases k with
        | zero => omega
        | succ j =>
          have : (2 : Nat) ^ (j + 1) = 2 * 2 ^ j := by rw [pow_succ]; ring
          omega

/-- C4 (amended): for every `n ≤ 2^63` (that is, whenever some power of two
greater than or equal to `n` exists in `usize`), `next_power_of_2 n` returns a
power of two that is greater than or equal to `n` and is the smallest such
value, and `next_power_of_2 0 = 1`. -/
theorem next_power_of_2_spec (n : Nat) (h : n ≤ 2 ^ 63) :
    ∃ m, next_power_of_2 n = some m ∧ (∃ k, m = 2 ^ k) ∧ n ≤ m ∧
      (∀ j, n ≤ 2 ^ j → m ≤ 2 ^ j) ∧ (n = 0 → m = 1) := by
  by_cases h0 : n = 0
  · subst h0
    exact ⟨1, by rw [next_power_of_2]; simp, ⟨0, rfl⟩, by omega,
      fun j _ => Nat.one_le_two_pow, fun _ => rfl⟩
  · by_cases hp : n &&& (n - 1) = 0
    · obtain ⟨k, hk⟩ := (land_pred_eq_zero_iff n (by omega)).mp hp
      refine ⟨n, ?_, ⟨k, hk⟩, le_rfl, fun j hj => hj, fun h' => absurd h' h0⟩
      rw [next_power_of_2, if_neg h0, if_pos hp]
    · have hnp : ∀ k, n ≠ 2 ^ k := fun k hk =>
        hp ((land_pred_eq_zero_iff n (by omega)).mpr ⟨k, hk⟩)
      have hL1 : 2 ^ Nat.log2 n ≤ n := Nat.log2_self_le h0
      have hL2 : n < 2 ^ (Nat.log2 n + 1) :=
        (Nat.log2_lt h0).mp (Nat.lt_succ_self _)
      have hL63 : Nat.log2 n ≤ 62 := by
        have hlt : n < 2 ^ 63 := lt_of_le_of_ne h (hnp 63)
        have := (Nat.log2_lt h0).mpr hlt
        omega
      have heval : next_power_of_2 n = some (2 ^ (Nat.log2 n + 1)) := by
        rw [next_power_of_2, if_neg h0, if_neg hp]
        simp only [leading_zeros]
        rw [if_neg (by omega)]
        congr 1
        rw [Nat.shiftRight_eq_div_pow]
        rw [show (0x8000000000000000 : Nat) = 2 ^ 63 by norm_num]
        rw [Nat.pow_div (by omega) (by norm_num)]
        congr 1
        omega
      refine ⟨2 ^ (Nat.log2 n + 1), heval, ⟨Nat.log2 n + 1, rfl⟩,
        le_of_lt hL2, ?_, fun h' => absurd h' h0⟩
      intro j hj
      have hjL : Nat.log2 n + 1 ≤ j := by
        by_contra hc
        push_neg at hc
        have hle : 2 ^ j ≤ 2 ^ Nat.log2 n :=
          Nat.pow_le_pow_right (by norm_num) (by omega)
        exact hnp j (le_antisymm hj (le_trans hle hL1))
      exact Nat.pow_le_pow_right (by norm_num) hjL

/-- C4 witness: at `n = 5` the hypothesis holds and `next_power_of_2` returns
the smallest power of two greater than or equal to `5`. -/
theorem next_power_of_2_spec_witness :
    (5 : Nat) ≤ 2 ^ 63 ∧
      ∃ m, next_power_of_2 5 = some m ∧ (∃ k, m = 2 ^ k) ∧ 5 ≤ m ∧
        (∀ j, 5 ≤ 2 ^ j → m ≤ 2 ^ j) ∧ ((5 : Nat) = 0 → m = 1) :=
  ⟨by norm_num, next_power_of_2_spec 5 (by norm_num)⟩

theorem leading_zeros_beyond : leading_zeros (2 ^ 63 + 1) = 0 := by
  rw [leading_zeros]
  have ha := (Nat.le_log2 (show (2 ^ 63 + 1 : Nat) ≠ 0 by norm_num)).mpr
    (show 2 ^ 63 ≤ 2 ^ 63 + 1 by norm_num)
  omega

/-- C4 counterexample: at the `usize` value `n = 2^63 + 1` the function does
not return any power of two at all: the `u32` subtraction
`n.leading_zeros() - 1` underflows (a panic, modelled as `none`), so the
claim quantified over every `usize` input is false. -/
theorem next_power_of_2_claim_counterexample :
    next_power_of_2 (2 ^ 63 + 1) = none ∧
      ¬∃ m, next_power_of_2 (2 ^ 63 + 1) = some m ∧ 2 ^ 63 + 1 ≤ m := by
  have h1 : next_power_of_2 (2 ^ 63 + 1) = none := by
    rw [next_power_of_2, if_neg (show ¬((2 : Nat) ^ 63 + 1 = 0) by norm_num),
      if_neg (show ¬((2 ^ 63 + 1) &&& (2 ^ 63 + 1 - 1) = 0) by decide),
      leading_zeros_beyond]
    rfl
  exact ⟨h1, fun ⟨m, hm, _⟩ => by rw [h1] at hm; cases hm⟩

theorem fft_recursive_nil (fuel : Nat) :
    fft_recursive fuel ([] : List (Complex Real)) = none := by
  induction fuel with
  | zero => rfl
  | succ fuel ih => simp [fft_recursive, evens, odds, ih]

/-- C2 (code bug): `fft` is not total.  On the empty polynomial the padding
step is a no-op (the all-zero/empty `degree_bound` sentinel makes
`set_degree_bound` append nothing), so the recursive core is entered with the
empty vector, on which it recurses forever: no call-depth budget produces a
result. -/
theorem fft_empty_diverges :
    fft_pad (Polynomial.mk ([] : List Real)) = some (Polynomial.mk []) ∧
      (∀ fuel, fft_recursive fuel ([] : List (Complex Real)) = none) ∧
      fft (Polynomial.mk ([] : List Real)) = none := by
  have hpad : fft_pad (Polynomial.mk ([] : List Real)) = some (Polynomial.mk []) := rfl
  refine ⟨hpad, fft_recursive_nil, ?_⟩
  rw [fft, hpad]
  show fft_recursive 1 (Complex.from_real_vec []) = none
  exact fft_recursive_nil 1

theorem leading_zeros_three : leading_zeros 3 = 62 := by
  rw [leading_zeros]
  have hn : (3 : Nat) ≠ 0 := by norm_num
  have ha := (Nat.le_log2 hn).mpr (show 2 ^ 1 ≤ 3 by norm_num)
  have hb := (Nat.log2_lt hn).mpr (show 3 < 2 ^ 2 by norm_num)
  omega

theorem next_power_of_2_three : next_power_of_2 3 = some 4 := by
  rw [next_power_of_2, if_neg (by norm_num),
    if_neg (show ¬((3 : Nat) &&& (3 - 1) = 0) by decide), leading_zeros_three]
  rfl

/-- C3 (code bug): the padding contract fails on all-zero input.  For
`p = [0.0, 0.0, 0.0]` we have `n2 = next_power_of_2 3 = 4 ≠ 3`, so
`set_degree_bound 3` is invoked; but `degree_bound` of the all-zero
polynomial is the `usize::MAX` sentinel, the saturating subtraction appends
nothing, and the vector handed to the recursive core still has `3` elements,
not `n2 = 4`. -/
theorem fft_pad_all_zero_not_power_of_two :
    next_power_of_2 3 = some 4 ∧
      fft_pad (Polynomial.mk [(0 : Real), 0, 0]) = some (Polynomial.mk [0, 0, 0]) ∧
      (Polynomial.mk [(0 : Real), 0, 0]).coeff.length = 3 := by
  refine ⟨next_power_of_2_three, ?_, rfl⟩
  rw [fft_pad]
  rw [show (Polynomial.mk [(0 : Real), 0, 0]).coeff.length = 3 from rfl,
    next_power_of_2_three, Option.map_some']
  congr 1
  rw [if_pos (by norm_num)]
  rw [Polynomial.set_degree_bound]
  have hdb : (Polynomial.mk [(0 : Real), 0, 0]).degree_bound = USIZE_MAX := by
    rw [Polynomial.degree_bound, if_pos (Or.inr (by norm_num))]
  rw [hdb]
  simp [USIZE_MAX]

theorem root_of_unity_four : Complex.root_of_unity 4 = ⟨0, -1⟩ := by
  rw [Complex.root_of_unity]
  have h : (-2 * Real.pi / ((4 : Nat) : Real)) = -(Real.pi / 2) := by
    push_cast
    ring
  rw [h, Real.cos_neg, Real.sin_neg, Real.cos_pi_div_two, Real.sin_pi_div_two]

theorem root_of_unity_two : Complex.root_of_unity 2 = ⟨-1, 0⟩ := by
  rw [Complex.root_of_unity]
  have h : (-2 * Real.pi / ((2 : Nat) : Real)) = -Real.pi := by
    push_cast
    ring
  rw [h, Real.cos_neg, Real.sin_neg, Real.cos_pi, Real.sin_pi]
  norm_num

theorem fft_example_eval :
    fft (Polynomial.mk [(0 : Real), 1, 3, 7]) =
      some [⟨11, 0⟩, ⟨-3, 6⟩, ⟨-5, 0⟩, ⟨-3, -6⟩] := by
  have hpad : fft_pad (Polynomial.mk [(0 : Real), 1, 3, 7]) =
      some (Polynomial.mk [0, 1, 3, 7]) := rfl
  rw [fft, hpad]
  show fft_recursive 5 (Complex.from_real_vec [(0 : Real), 1, 3, 7]) =
    some [⟨11, 0⟩, ⟨-3, 6⟩, ⟨-5, 0⟩, ⟨-3, -6⟩]
  rw [show Complex.from_real_vec [(0 : Real), 1, 3, 7] =
    [⟨0, 0⟩, ⟨1, 0⟩, ⟨3, 0⟩, ⟨7, 0⟩] from rfl]
  simp [fft_recursive, evens, odds, fft_combine, root_of_unity_four,
    root_of_unity_two, List.range_succ]
  norm_num [Complex.mk.injEq]

/-- C1: on the coefficient vector `[0, 1, 3, 7]` (length 4, already a power
of two) `fft` returns exactly four complex values whose real and imaginary
parts are within `1e-6` of `(11, 0)`, `(-3, 6)`, `(-5, 0)`, `(-3, -6)`, in
that order (in the exact-real model the values are attained exactly). -/
theorem fft_example_within_tolerance :
    ∃ l, fft (Polynomial.mk [(0 : Real), 1, 3, 7]) = some l ∧ l.length = 4 ∧
      |(l.getD 0 ⟨0, 0⟩).re - 11| ≤ 1e-6 ∧ |(l.getD 0 ⟨0, 0⟩).im - 0| ≤ 1e-6 ∧
      |(l.getD 1 ⟨0, 0⟩).re - (-3)| ≤ 1e-6 ∧ |(l.getD 1 ⟨0, 0⟩).im - 6| ≤ 1e-6 ∧
      |(l.getD 2 ⟨0, 0⟩).re - (-5)| ≤ 1e-6 ∧ |(l.getD 2 ⟨0, 0⟩).im - 0| ≤ 1e-6 ∧
      |(l.getD 3 ⟨0, 0⟩).re - (-3)| ≤ 1e-6 ∧ |(l.getD 3 ⟨0, 0⟩).im - (-6)| ≤ 1e-6 := by
  refine ⟨[⟨11, 0⟩, ⟨-3, 6⟩, ⟨-5, 0⟩, ⟨-3, -6⟩], fft_example_eval, rfl, ?_, ?_, ?_, ?_,
    ?_, ?_, ?_, ?_⟩ <;> norm_num

end Ralg
